import Mathlib

/-!
Verification of the CRDT implementations in `learning-crdts-rust`.

Rust `BTreeMap κ β` values are embedded as association lists sorted strictly
by key (`SortedKeys`), and `BTreeSet κ` values as strictly sorted lists
(`SortedSet`).  Structural equality of the Rust values corresponds to plain
list equality of the embeddings, and iteration order of the B-trees is the
list order.
-/

namespace Crdts

section AssocList

variable {κ : Type} [LinearOrder κ] {β : Type}

/-- Lookup of a key in an association list (first occurrence), modelling
`BTreeMap::get`. -/
def lookupA : List (κ × β) → κ → Option β
  | [], _ => none
  | (k1, v1) :: t, k => if k = k1 then some v1 else lookupA t k

/-- `BTreeMap::contains_key`. -/
def containsKeyA (l : List (κ × β)) (k : κ) : Bool :=
  (lookupA l k).isSome

/-- Lookup with default, modelling `map.get(&k).copied().unwrap_or(d)`. -/
def lookupD (l : List (κ × β)) (k : κ) (d : β) : β :=
  (lookupA l k).getD d

/-- Sorted insertion, modelling `BTreeMap::insert` (replaces an existing
binding). -/
def insertA : List (κ × β) → κ → β → List (κ × β)
  | [], k, v => [(k, v)]
  | (k1, v1) :: t, k, v =>
    if k < k1 then (k, v) :: (k1, v1) :: t
    else if k = k1 then (k, v) :: t
    else (k1, v1) :: insertA t k v

/-- Key removal, modelling `BTreeMap::remove` (on lists with distinct keys). -/
def eraseA : List (κ × β) → κ → List (κ × β)
  | [], _ => []
  | (k1, v1) :: t, k => if k1 = k then eraseA t k else (k1, v1) :: eraseA t k

/-- The keys of an association list, in list order (`BTreeMap::keys`). -/
def keysA (l : List (κ × β)) : List κ :=
  l.map Prod.fst

/-- The invariant of the `BTreeMap` embedding: keys strictly increasing. -/
def SortedKeys (l : List (κ × β)) : Prop :=
  l.Pairwise (fun p q => p.1 < q.1)

instance (l : List (κ × β)) : Decidable (SortedKeys l) := by
  unfold SortedKeys; infer_instance

theorem lookupA_insertA_self (l : List (κ × β)) (k : κ) (v : β) :
    lookupA (insertA l k v) k = some v := by
  induction l with
  | nil => simp [insertA, lookupA]
  | cons h t ih =>
    obtain ⟨k1, v1⟩ := h
    by_cases h1 : k < k1
    · simp [insertA, h1, lookupA]
    · by_cases h2 : k = k1
      · simp [insertA, h1, h2, lookupA]
      · simp [insertA, h1, h2, lookupA, ih]

theorem lookupA_insertA_ne (l : List (κ × β)) (k k' : κ) (v : β) (h : k' ≠ k) :
    lookupA (insertA l k v) k' = lookupA l k' := by
  induction l with
  | nil => simp [insertA, lookupA, h]
  | cons hd t ih =>
    obtain ⟨k1, v1⟩ := hd
    by_cases h1 : k < k1
    · simp [insertA, h1, lookupA, h]
    · by_cases h2 : k = k1
      · subst h2; simp [insertA, h1, lookupA, h]
      · by_cases h3 : k' = k1 <;> simp [insertA, h1, h2, lookupA, h3, ih]

theorem mem_insertA (l : List (κ × β)) (k : κ) (v : β) (p : κ × β) :
    p ∈ insertA l k v → p = (k, v) ∨ p ∈ l := by
  induction l with
  | nil => simp [insertA]
  | cons hd t ih =>
    obtain ⟨k1, v1⟩ := hd
    by_cases h1 : k < k1
    · simp only [insertA, h1, if_pos]
      intro hm
      simpa using List.mem_cons.mp hm
    · by_cases h2 : k = k1
      · subst h2
        rw [insertA, if_neg (lt_irrefl k), if_pos rfl]
        intro hm
        rcases List.mem_cons.mp hm with h | h
        · exact Or.inl h
        · exact Or.inr (List.mem_cons_of_mem _ h)
      · simp only [insertA, h1, h2, if_neg, if_false]
        intro hm
        rcases List.mem_cons.mp hm with h | h
        · exact Or.inr (h ▸ List.mem_cons_self _ _)
        · rcases ih h with h | h
          · exact Or.inl h
          · exact Or.inr (List.mem_cons_of_mem _ h)

theorem sortedKeys_insertA {l : List (κ × β)} (hs : SortedKeys l) (k : κ) (v : β) :
    SortedKeys (insertA l k v) := by
  induction l with
  | nil => simp [insertA, SortedKeys]
  | cons hd t ih =>
    obtain ⟨k1, v1⟩ := hd
    rw [SortedKeys, List.pairwise_cons] at hs
    obtain ⟨hlt, hst⟩ := hs
    by_cases h1 : k < k1
    · rw [SortedKeys, insertA]
      simp only [h1, if_pos]
      refine List.Pairwise.cons ?_ (List.Pairwise.cons hlt hst)
      intro p hm
      rcases List.mem_cons.mp hm with h | h
      · rw [h]; exact h1
      · exact lt_trans h1 (hlt _ h)
    · by_cases h2 : k = k1
      · subst h2
        rw [SortedKeys, insertA]
        simp only [lt_irrefl, if_neg, if_pos, if_false, not_false_iff]
        exact List.Pairwise.cons hlt hst
      · rw [SortedKeys, insertA]
        simp only [h1, h2, if_neg, if_false]
        refine List.Pairwise.cons ?_ (ih hst)
        intro p hm
        rcases mem_insertA t k v _ hm with h | h
        · rw [h]
          exact lt_of_le_of_ne (not_lt.mp h1) (Ne.symm h2)
        · exact hlt _ h

theorem lookupA_eraseA_self (l : List (κ × β)) (k : κ) :
    lookupA (eraseA l k) k = none := by
  induction l with
  | nil => simp [eraseA, lookupA]
  | cons hd t ih =>
    obtain ⟨k1, v1⟩ := hd
    by_cases h : k1 = k
    · simp [eraseA, h, ih]
    · have h' : k ≠ k1 := fun hh => h hh.symm
      simp [eraseA, h, lookupA, h', ih]

theorem lookupA_eraseA_ne (l : List (κ × β)) (k k' : κ) (h : k' ≠ k) :
    lookupA (eraseA l k) k' = lookupA l k' := by
  induction l with
  | nil => simp [eraseA, lookupA]
  | cons hd t ih =>
    obtain ⟨k1, v1⟩ := hd
    by_cases h1 : k1 = k
    · subst h1
      simp [eraseA, lookupA, h, ih]
    · by_cases h2 : k' = k1 <;> simp [eraseA, h1, lookupA, h2, ih]

theorem eraseA_sublist (l : List (κ × β)) (k : κ) : List.Sublist (eraseA l k) l := by
  induction l with
  | nil => simp [eraseA]
  | cons hd t ih =>
    obtain ⟨k1, v1⟩ := hd
    by_cases h : k1 = k
    · simp only [eraseA, h, if_pos]
      exact ih.cons _
    · simp only [eraseA, h, if_neg, if_false]
      exact ih.cons₂ _

theorem sortedKeys_eraseA {l : List (κ × β)} (hs : SortedKeys l) (k : κ) :
    SortedKeys (eraseA l k) :=
  List.Pairwise.sublist (eraseA_sublist l k) hs

theorem lookupA_eq_none_iff (l : List (κ × β)) (k : κ) :
    lookupA l k = none ↔ k ∉ keysA l := by
  induction l with
  | nil => simp [lookupA, keysA]
  | cons hd t ih =>
    obtain ⟨k1, v1⟩ := hd
    by_cases h : k = k1
    · subst h; simp [lookupA, keysA]
    · simp [lookupA, keysA, h, ih]

theorem mem_keysA_of_lookupA {l : List (κ × β)} {k : κ} {v : β}
    (h : lookupA l k = some v) : k ∈ keysA l := by
  by_contra hc
  rw [← lookupA_eq_none_iff] at hc
  rw [hc] at h
  exact Option.noConfusion h

theorem sortedKeys_head_lt {k1 : κ} {v1 : β} {t : List (κ × β)}
    (hs : SortedKeys ((k1, v1) :: t)) {k : κ} (hk : k ∈ keysA t) : k1 < k := by
  rw [SortedKeys, List.pairwise_cons] at hs
  rcases List.mem_map.mp hk with ⟨p, hp, rfl⟩
  exact hs.1 p hp

theorem lookupA_ext {a b : List (κ × β)} (ha : SortedKeys a) (hb : SortedKeys b)
    (h : ∀ k, lookupA a k = lookupA b k) : a = b := by
  induction a generalizing b with
  | nil =>
    cases b with
    | nil => rfl
    | cons hd t =>
      obtain ⟨k1, v1⟩ := hd
      have := h k1
      simp [lookupA] at this
  | cons hd t ih =>
    obtain ⟨k1, v1⟩ := hd
    cases b with
    | nil =>
      have := h k1
      simp [lookupA] at this
    | cons hd2 t2 =>
      obtain ⟨k2, v2⟩ := hd2
      have hkeq : k1 = k2 := by
        by_contra hne
        have h1 : lookupA ((k2, v2) :: t2) k1 = some v1 := by
          rw [← h k1]; simp [lookupA]
        have h2 : lookupA ((k1, v1) :: t) k2 = some v2 := by
          rw [h k2]; simp [lookupA]
        rw [lookupA, if_neg hne] at h1
        rw [lookupA, if_neg (Ne.symm hne)] at h2
        have hlt1 : k2 < k1 := sortedKeys_head_lt hb (mem_keysA_of_lookupA h1)
        have hlt2 : k1 < k2 := sortedKeys_head_lt ha (mem_keysA_of_lookupA h2)
        exact absurd hlt1 (not_lt.mpr hlt2.le)
      subst hkeq
      have hveq : v1 = v2 := by
        have := h k1
        simp [lookupA] at this
        exact this
      subst hveq
      rw [SortedKeys, List.pairwise_cons] at ha hb
      congr 1
      refine ih ha.2 hb.2 (fun k => ?_)
      by_cases hk : k = k1
      · subst hk
        have h1 : lookupA t k = none := by
          rw [lookupA_eq_none_iff]
          intro hm
          exact absurd (sortedKeys_head_lt (List.Pairwise.cons ha.1 ha.2) hm)
            (lt_irrefl k)
        have h2 : lookupA t2 k = none := by
          rw [lookupA_eq_none_iff]
          intro hm
          exact absurd (sortedKeys_head_lt (List.Pairwise.cons hb.1 hb.2) hm)
            (lt_irrefl k)
        rw [h1, h2]
      · have := h k
        rwa [lookupA, if_neg hk, lookupA, if_neg hk] at this

end AssocList

section SortedSet

variable {κ : Type} [LinearOrder κ]

/-- Ordered duplicate-free insertion, modelling `BTreeSet::insert`. -/
def insertS : List κ → κ → List κ
  | [], d => [d]
  | h :: t, d =>
    if d < h then d :: h :: t
    else if d = h then h :: t
    else h :: insertS t d

/-- The invariant of the `BTreeSet` embedding: elements strictly increasing. -/
def SortedSet (l : List κ) : Prop :=
  l.Pairwise (· < ·)

instance (l : List κ) : Decidable (SortedSet l) := by
  unfold SortedSet; infer_instance

theorem mem_insertS (l : List κ) (d x : κ) : x ∈ insertS l d ↔ x = d ∨ x ∈ l := by
  induction l with
  | nil => simp [insertS]
  | cons h t ih =>
    by_cases h1 : d < h
    · simp [insertS, h1]
    · by_cases h2 : d = h
      · subst h2
        rw [insertS, if_neg (lt_irrefl d), if_pos rfl]
        simp
      · simp [insertS, h1, h2, ih]
        tauto

theorem sortedSet_insertS {l : List κ} (hs : SortedSet l) (d : κ) :
    SortedSet (insertS l d) := by
  induction l with
  | nil => simp [insertS, SortedSet]
  | cons h t ih =>
    rw [SortedSet, List.pairwise_cons] at hs
    obtain ⟨hlt, hst⟩ := hs
    by_cases h1 : d < h
    · rw [SortedSet, insertS, if_pos h1]
      refine List.Pairwise.cons ?_ (List.Pairwise.cons hlt hst)
      intro x hm
      rcases List.mem_cons.mp hm with hx | hx
      · rw [hx]; exact h1
      · exact lt_trans h1 (hlt _ hx)
    · by_cases h2 : d = h
      · subst h2
        rw [SortedSet, insertS, if_neg (lt_irrefl d), if_pos rfl]
        exact List.Pairwise.cons hlt hst
      · rw [SortedSet, insertS, if_neg h1, if_neg h2]
        refine List.Pairwise.cons ?_ (ih hst)
        intro x hm
        rcases (mem_insertS t d x).mp hm with hx | hx
        · rw [hx]
          exact lt_of_le_of_ne (not_lt.mp h1) (Ne.symm h2)
        · exact hlt _ hx

theorem sortedSet_ext {a b : List κ} (ha : SortedSet a) (hb : SortedSet b)
    (h : ∀ x, x ∈ a ↔ x ∈ b) : a = b := by
  induction a generalizing b with
  | nil =>
    cases b with
    | nil => rfl
    | cons h2 t2 =>
      have := (h h2).mpr (List.mem_cons_self _ _)
      simp at this
  | cons h1 t ih =>
    cases b with
    | nil =>
      have := (h h1).mp (List.mem_cons_self _ _)
      simp at this
    | cons h2 t2 =>
      rw [SortedSet, List.pairwise_cons] at ha hb
      have hheq : h1 = h2 := by
        by_contra hne
        rcases List.mem_cons.mp ((h h1).mp (List.mem_cons_self _ _)) with hx | hx
        · exact hne hx
        · have hlt1 : h2 < h1 := hb.1 _ hx
          rcases List.mem_cons.mp ((h h2).mpr (List.mem_cons_self _ _)) with hy | hy
          · exact hne hy.symm
          · exact absurd (ha.1 _ hy) (not_lt.mpr hlt1.le)
      subst hheq
      congr 1
      refine ih ha.2 hb.2 (fun x => ?_)
      constructor
      · intro hx
        rcases List.mem_cons.mp ((h x).mp (List.mem_cons_of_mem _ hx)) with hy | hy
        · exact absurd (hy ▸ ha.1 _ hx) (lt_irrefl h1)
        · exact hy
      · intro hx
        rcases List.mem_cons.mp ((h x).mpr (List.mem_cons_of_mem _ hx)) with hy | hy
        · exact absurd (hy ▸ hb.1 _ hx) (lt_irrefl h1)
        · exact hy

end SortedSet

/-! ## The dotted-version-vector substrate of `sypytkowski-blog/src/delta_state/dot.rs` -/

/-- `ReplicaId(pub u64)`. -/
abbrev ReplicaId := ℕ

/-- `VectorClock(pub BTreeMap<ReplicaId, u64>)`, embedded as its sorted entry
list. -/
abbrev VectorClock := List (ReplicaId × ℕ)

/-- `Dot(pub ReplicaId, pub u64)`. -/
structure Dot where
  replica : ReplicaId
  n : ℕ
deriving DecidableEq, Repr

/-- The derived lexicographic `Ord` of `Dot`. -/
instance : LinearOrder Dot where
  le a b := a.replica < b.replica ∨ (a.replica = b.replica ∧ a.n ≤ b.n)
  lt a b := a.replica < b.replica ∨ (a.replica = b.replica ∧ a.n < b.n)
  le_refl a := Or.inr ⟨rfl, le_refl _⟩
  le_trans a b c hab hbc := by
    rcases hab with h | ⟨h1, h2⟩ <;> rcases hbc with h' | ⟨h1', h2'⟩
    · exact Or.inl (lt_trans h h')
    · exact Or.inl (h1' ▸ h)
    · exact Or.inl (h1 ▸ h')
    · exact Or.inr ⟨h1.trans h1', le_trans h2 h2'⟩
  lt_iff_le_not_le a b := by
    constructor
    · rintro (h | ⟨h1, h2⟩)
      · refine ⟨Or.inl h, ?_⟩
        rintro (h' | ⟨h1', h2'⟩)
        · exact absurd (lt_trans h h') (lt_irrefl _)
        · exact absurd (h1' ▸ h) (lt_irrefl _)
      · refine ⟨Or.inr ⟨h1, le_of_lt h2⟩, ?_⟩
        rintro (h' | ⟨h1', h2'⟩)
        · exact absurd (h1 ▸ h') (lt_irrefl _)
        · exact absurd h2 (not_lt.mpr h2')
    · rintro ⟨h | ⟨h1, h2⟩, hn⟩
      · exact Or.inl h
      · rcases lt_or_eq_of_le h2 with h' | h'
        · exact Or.inr ⟨h1, h'⟩
        · exact absurd (Or.inr ⟨h1.symm, le_of_eq h'.symm⟩) hn
  le_antisymm a b hab hba := by
    rcases hab with h | ⟨h1, h2⟩ <;> rcases hba with h' | ⟨h1', h2'⟩
    · exact absurd (lt_trans h h') (lt_irrefl _)
    · exact absurd (h1' ▸ h) (lt_irrefl _)
    · exact absurd (h1 ▸ h') (lt_irrefl _)
    · obtain ⟨ar, an⟩ := a
      obtain ⟨br, bn⟩ := b
      simp only [Dot.mk.injEq]
      exact ⟨h1, le_antisymm h2 h2'⟩
  le_total a b := by
    rcases Nat.lt_trichotomy a.replica b.replica with h | h | h
    · exact Or.inl (Or.inl h)
    · rcases Nat.le_total a.n b.n with h' | h'
      · exact Or.inl (Or.inr ⟨h, h'⟩)
      · exact Or.inr (Or.inr ⟨h.symm, h'⟩)
    · exact Or.inr (Or.inl h)
  decidableLE a b := inferInstanceAs (Decidable (_ ∨ _))
  decidableEq := inferInstance
  decidableLT a b := inferInstanceAs (Decidable (_ ∨ _))

/-- `DotCtx { clock, dot_cloud }`; the cloud is a `BTreeSet<Dot>`. -/
structure DotCtx where
  clock : VectorClock
  dot_cloud : List Dot
deriving DecidableEq, Repr

/-- `DotCtx::add`: insert the dot into the cloud. -/
def DotCtx.add (ctx : DotCtx) (dot : Dot) : DotCtx :=
  { ctx with dot_cloud := insertS ctx.dot_cloud dot }

/-- `DotCtx::contains`. -/
def DotCtx.contains (ctx : DotCtx) (dot : Dot) : Bool :=
  match lookupA ctx.clock dot.replica with
  | some found => if dot.n ≤ found then true else decide (dot ∈ ctx.dot_cloud)
  | none => decide (dot ∈ ctx.dot_cloud)

/-- `DotCtx::next_dot`: bump `clock[replica]` (insert 1 when absent) and
return the resulting dot.  The Rust method mutates `self`; here the updated
context is returned alongside. -/
def DotCtx.next_dot (ctx : DotCtx) (replica : ReplicaId) : Dot × DotCtx :=
  let val := lookupD ctx.clock replica 0 + 1
  (⟨replica, val⟩, { ctx with clock := insertA ctx.clock replica val })

/-- The single in-order sweep of `DotCtx::compact`: `drain_filter` visits the
cloud in ascending `Dot` order while the closure mutates the clock. -/
def compactGo (clock : VectorClock) : List Dot → VectorClock × List Dot
  | [] => (clock, [])
  | d :: rest =>
    if d.n = lookupD clock d.replica 0 + 1 then
      compactGo (insertA clock d.replica d.n) rest
    else if d.n ≤ lookupD clock d.replica 0 then
      compactGo clock rest
    else
      ((compactGo clock rest).1, d :: (compactGo clock rest).2)

/-- `DotCtx::compact`. -/
def DotCtx.compact (ctx : DotCtx) : DotCtx :=
  { clock := (compactGo ctx.clock ctx.dot_cloud).1,
    dot_cloud := (compactGo ctx.clock ctx.dot_cloud).2 }

/-- The clock part of `DotCtx::merge`: fold `self.clock` into a clone of
`other.clock`, `entry(..).and_modify(max).or_insert(..)`. -/
def clockMerge (a b : VectorClock) : VectorClock :=
  a.foldl (fun acc kv =>
    match lookupA acc kv.1 with
    | some old => insertA acc kv.1 (max kv.2 old)
    | none => insertA acc kv.1 kv.2) b

/-- The cloud part of `DotCtx::merge`: clone `self.dot_cloud` and extend it
with `other.dot_cloud`. -/
def cloudUnion (a b : List Dot) : List Dot :=
  b.foldl insertS a

/-- `DotCtx::merge`: pointwise-max clocks, union of clouds, then compact. -/
def DotCtx.merge (a b : DotCtx) : DotCtx :=
  DotCtx.compact { clock := clockMerge a.clock b.clock,
                   dot_cloud := cloudUnion a.dot_cloud b.dot_cloud }

/-! ## DotKernel -/

/-- `DotKernel<V> { ctx, entries }`; `entries: BTreeMap<Dot, V>`. -/
structure DotKernel (V : Type) where
  ctx : DotCtx
  entries : List (Dot × V)
deriving DecidableEq, Repr

/-- `DotKernel::default()`. -/
def DotKernel.default (V : Type) : DotKernel V :=
  { ctx := { clock := [], dot_cloud := [] }, entries := [] }

/-- The first condition of `DotKernel::merge`: a dot of `other.entries` is
copied over iff `!(self.entries.contains_key(dot) || self.ctx.contains(*dot))`. -/
def mergeKeep {V : Type} (a : DotKernel V) (d : Dot) : Bool :=
  !(containsKeyA a.entries d || a.ctx.contains d)

/-- The second condition of `DotKernel::merge`: a dot of `self.entries` is
dropped iff `other.ctx.contains(*dot) && !other.entries.contains_key(dot)`. -/
def mergeDrop {V : Type} (b : DotKernel V) (d : Dot) : Bool :=
  b.ctx.contains d && !(containsKeyA b.entries d)

/-- `DotKernel::merge`. -/
def DotKernel.merge {V : Type} (a b : DotKernel V) : DotKernel V :=
  let entries0 := b.entries.foldl (fun acc dv =>
    if mergeKeep a dv.1 then insertA acc dv.1 dv.2 else acc) a.entries
  let entries := (keysA a.entries).foldl (fun acc dot =>
    if mergeDrop b dot then eraseA acc dot else acc) entries0
  { entries := entries, ctx := a.ctx.merge b.ctx }

/-- `DotKernel::add`: mutates both the kernel and the delta; both updated
values are returned. -/
def DotKernel.add {V : Type} (self : DotKernel V) (replica : ReplicaId)
    (value : V) (delta : DotKernel V) : DotKernel V × DotKernel V :=
  let p := self.ctx.next_dot replica
  ({ ctx := p.2, entries := insertA self.entries p.1 value },
   { entries := insertA delta.entries p.1 value,
     ctx := DotCtx.compact (delta.ctx.add p.1) })

/-- `DotKernel::remove`: drop the first entry (in dot order) whose value
equals `value`, recording its dot in the delta context. -/
def DotKernel.remove {V : Type} [DecidableEq V] (self : DotKernel V)
    (value : V) (delta : DotKernel V) : DotKernel V × DotKernel V :=
  match self.entries.find? (fun dv => decide (dv.2 = value)) with
  | some dv =>
      ({ self with entries := eraseA self.entries dv.1 },
       { delta with ctx := delta.ctx.add dv.1 })
  | none => (self, delta)

/-- `DotKernel::remove_all`: drain every entry, adding each dot to the
kernel's own context (`self.ctx`, not a delta), then compact. -/
def DotKernel.remove_all {V : Type} (self : DotKernel V) : DotKernel V :=
  { entries := [],
    ctx := DotCtx.compact ((keysA self.entries).foldl DotCtx.add self.ctx) }

/-! ## Commutativity of `DotCtx::merge` -/

theorem mem_cloudUnion (a b : List Dot) (x : Dot) :
    x ∈ cloudUnion a b ↔ x ∈ a ∨ x ∈ b := by
  induction b generalizing a with
  | nil => simp [cloudUnion]
  | cons d t ih =>
    show x ∈ List.foldl insertS (insertS a d) t ↔ _
    rw [show List.foldl insertS (insertS a d) t = cloudUnion (insertS a d) t from rfl]
    rw [ih, mem_insertS]
    simp [List.mem_cons]
    tauto

theorem sortedSet_cloudUnion {a : List Dot} (ha : SortedSet a) (b : List Dot) :
    SortedSet (cloudUnion a b) := by
  induction b generalizing a with
  | nil => exact ha
  | cons d t ih =>
    show SortedSet (cloudUnion (insertS a d) t)
    exact ih (sortedSet_insertS ha d)

theorem cloudUnion_comm {a b : List Dot} (ha : SortedSet a) (hb : SortedSet b) :
    cloudUnion a b = cloudUnion b a := by
  refine sortedSet_ext (sortedSet_cloudUnion ha b) (sortedSet_cloudUnion hb a) (fun x => ?_)
  rw [mem_cloudUnion, mem_cloudUnion]
  tauto

theorem lookupA_clockMerge {a : VectorClock} (ha : SortedKeys a) (b : VectorClock)
    (k : ReplicaId) :
    lookupA (clockMerge a b) k =
      match lookupA a k, lookupA b k with
      | some va, some vb => some (max va vb)
      | some va, none => some va
      | none, o => o := by
  induction a generalizing b with
  | nil => cases hl : lookupA b k <;> simp [clockMerge, lookupA, hl]
  | cons hd t ih =>
    obtain ⟨k1, v1⟩ := hd
    rw [SortedKeys, List.pairwise_cons] at ha
    have hstep : clockMerge ((k1, v1) :: t) b =
        clockMerge t (match lookupA b k1 with
          | some old => insertA b k1 (max v1 old)
          | none => insertA b k1 v1) := rfl
    rw [hstep, ih ha.2]
    by_cases hk : k = k1
    · subst hk
      have htk : lookupA t k = none := by
        rw [lookupA_eq_none_iff]
        intro hm
        exact absurd (sortedKeys_head_lt (List.Pairwise.cons ha.1 ha.2) hm) (lt_irrefl k)
      rw [htk]
      cases hbk : lookupA b k with
      | none => simp [lookupA, lookupA_insertA_self]
      | some old => simp [lookupA, lookupA_insertA_self]
    · have hhd : lookupA ((k1, v1) :: t) k = lookupA t k := by
        rw [lookupA, if_neg hk]
      rw [hhd]
      cases hbk1 : lookupA b k1 with
      | none => rw [lookupA_insertA_ne b k1 k v1 hk]
      | some old => rw [lookupA_insertA_ne b k1 k (max v1 old) hk]

theorem clockMerge_cons (k1 : ReplicaId) (v1 : ℕ) (t b : VectorClock) :
    clockMerge ((k1, v1) :: t) b =
      clockMerge t (match lookupA b k1 with
        | some old => insertA b k1 (max v1 old)
        | none => insertA b k1 v1) := rfl

theorem sortedKeys_clockMerge (a : VectorClock) {b : VectorClock}
    (hb : SortedKeys b) : SortedKeys (clockMerge a b) := by
  induction a generalizing b with
  | nil => exact hb
  | cons hd t ih =>
    obtain ⟨k1, v1⟩ := hd
    rw [clockMerge_cons]
    cases hbk1 : lookupA b k1 with
    | none => exact ih (sortedKeys_insertA hb k1 v1)
    | some old => exact ih (sortedKeys_insertA hb k1 (max v1 old))

theorem clockMerge_comm {a b : VectorClock} (ha : SortedKeys a) (hb : SortedKeys b) :
    clockMerge a b = clockMerge b a := by
  refine lookupA_ext (sortedKeys_clockMerge a hb) (sortedKeys_clockMerge b ha) (fun k => ?_)
  rw [lookupA_clockMerge ha b k, lookupA_clockMerge hb a k]
  cases lookupA a k <;> cases lookupA b k <;> simp [Nat.max_comm]

/-- Commutativity of `DotCtx::merge` needs no precondition beyond the B-tree
representation invariants. -/
theorem dotCtx_merge_comm {a b : DotCtx} (hca : SortedKeys a.clock)
    (hcb : SortedKeys b.clock) (hda : SortedSet a.dot_cloud)
    (hdb : SortedSet b.dot_cloud) : a.merge b = b.merge a := by
  rw [DotCtx.merge, DotCtx.merge, clockMerge_comm hca hcb, cloudUnion_comm hda hdb]

/-! ## Commutativity of `DotKernel::merge` (claim C1) -/

section AssocListMem

variable {κ : Type} [LinearOrder κ] {β : Type}

theorem lookupA_mem {l : List (κ × β)} {k : κ} {v : β}
    (h : lookupA l k = some v) : (k, v) ∈ l := by
  induction l with
  | nil => simp [lookupA] at h
  | cons hd t ih =>
    obtain ⟨k1, v1⟩ := hd
    by_cases hk : k = k1
    · subst hk
      rw [lookupA, if_pos rfl] at h
      cases h
      exact List.mem_cons_self _ _
    · rw [lookupA, if_neg hk] at h
      exact List.mem_cons_of_mem _ (ih h)

end AssocListMem

theorem lookupA_foldl_insert_if {V : Type} (P : Dot → Bool)
    {l : List (Dot × V)} (hs : SortedKeys l) (m : List (Dot × V)) (k : Dot) :
    lookupA (l.foldl (fun acc dv => if P dv.1 then insertA acc dv.1 dv.2 else acc) m) k =
      match lookupA l k with
      | some v => if P k then some v else lookupA m k
      | none => lookupA m k := by
  induction l generalizing m with
  | nil => simp [lookupA]
  | cons hd t ih =>
    obtain ⟨k1, v1⟩ := hd
    rw [SortedKeys, List.pairwise_cons] at hs
    rw [List.foldl_cons, ih hs.2]
    by_cases hk : k = k1
    · subst hk
      have htk : lookupA t k = none := by
        rw [lookupA_eq_none_iff]
        intro hm
        exact absurd (sortedKeys_head_lt (List.Pairwise.cons hs.1 hs.2) hm) (lt_irrefl k)
      cases hP : P k <;>
        simp [htk, hP, lookupA, lookupA_insertA_self]
    · have hne : k ≠ k1 := hk
      cases htk : lookupA t k <;> cases hP : P k <;> cases hP1 : P k1 <;>
        simp [htk, hP, hP1, lookupA, hne, lookupA_insertA_ne m k1 k v1 hne]

theorem sortedKeys_foldl_insert_if {V : Type} (P : Dot → Bool)
    (l : List (Dot × V)) {m : List (Dot × V)} (hm : SortedKeys m) :
    SortedKeys (l.foldl (fun acc dv => if P dv.1 then insertA acc dv.1 dv.2 else acc) m) := by
  induction l generalizing m with
  | nil => exact hm
  | cons hd t ih =>
    rw [List.foldl_cons]
    cases hP : P hd.1
    · simp only [hP, Bool.false_eq_true, if_false]
      exact ih hm
    · simp only [hP, if_true]
      exact ih (sortedKeys_insertA hm hd.1 hd.2)

theorem lookupA_foldl_erase_if {V : Type} (Q : Dot → Bool) (ks : List Dot)
    (m : List (Dot × V)) (k : Dot) :
    lookupA (ks.foldl (fun acc d => if Q d then eraseA acc d else acc) m) k =
      if k ∈ ks ∧ Q k = true then none else lookupA m k := by
  induction ks generalizing m with
  | nil => simp
  | cons d t ih =>
    rw [List.foldl_cons, ih]
    by_cases hkt : k ∈ t ∧ Q k = true
    · rw [if_pos hkt, if_pos ⟨List.mem_cons_of_mem _ hkt.1, hkt.2⟩]
    · rw [if_neg hkt]
      by_cases hkd : k = d
      · subst hkd
        cases hQ : Q k
        · simp
        · simp [lookupA_eraseA_self]
      · have hc : ¬(k ∈ d :: t ∧ Q k = true) := by
          rintro ⟨hm', hq⟩
          rcases List.mem_cons.mp hm' with h | h
          · exact hkd h
          · exact hkt ⟨h, hq⟩
        rw [if_neg hc]
        cases hQd : Q d
        · simp only [hQd, Bool.false_eq_true, if_false]
        · simp only [hQd, if_true]
          exact lookupA_eraseA_ne m d k hkd

theorem sortedKeys_foldl_erase_if {V : Type} (Q : Dot → Bool) (ks : List Dot)
    {m : List (Dot × V)} (hm : SortedKeys m) :
    SortedKeys (ks.foldl (fun acc d => if Q d then eraseA acc d else acc) m) := by
  induction ks generalizing m with
  | nil => exact hm
  | cons d t ih =>
    rw [List.foldl_cons]
    cases hQ : Q d
    · simp only [hQ, Bool.false_eq_true, if_false]
      exact ih hm
    · simp only [hQ, if_true]
      exact ih (sortedKeys_eraseA hm d)

theorem dotKernel_merge_entries {V : Type} (a b : DotKernel V) :
    (a.merge b).entries =
      (keysA a.entries).foldl (fun acc d => if mergeDrop b d then eraseA acc d else acc)
        (b.entries.foldl (fun acc dv =>
          if mergeKeep a dv.1 then insertA acc dv.1 dv.2 else acc) a.entries) := rfl

theorem dotKernel_merge_ctx {V : Type} (a b : DotKernel V) :
    (a.merge b).ctx = a.ctx.merge b.ctx := rfl

theorem sortedKeys_merge_entries {V : Type} (a b : DotKernel V)
    (hsa : SortedKeys a.entries) : SortedKeys (a.merge b).entries := by
  rw [dotKernel_merge_entries]
  exact sortedKeys_foldl_erase_if _ _ (sortedKeys_foldl_insert_if _ _ hsa)

/-- C1: for every pair of DotKernels that satisfy the kernel-patch
precondition of `patch_kernels` (no dot present in both entry maps mapped to
different values), `a.merge(&b)` equals `b.merge(&a)` under structural
equality.  The `SortedKeys`/`SortedSet` hypotheses are the representation
invariants every Rust `BTreeMap`/`BTreeSet` holds by construction. -/
theorem C1_dotKernel_merge_comm {V : Type} (a b : DotKernel V)
    (hsa : SortedKeys a.entries) (hsb : SortedKeys b.entries)
    (hca : SortedKeys a.ctx.clock) (hcb : SortedKeys b.ctx.clock)
    (hda : SortedSet a.ctx.dot_cloud) (hdb : SortedSet b.ctx.dot_cloud)
    (hpatch : ∀ p ∈ a.entries, ∀ q ∈ b.entries, p.1 = q.1 → p.2 = q.2) :
    a.merge b = b.merge a := by
  have hent : (a.merge b).entries = (b.merge a).entries := by
    refine lookupA_ext (sortedKeys_merge_entries a b hsa) (sortedKeys_merge_entries b a hsb)
      (fun d => ?_)
    rw [dotKernel_merge_entries a b, dotKernel_merge_entries b a]
    rw [lookupA_foldl_erase_if (mergeDrop b) (keysA a.entries) _ d,
        lookupA_foldl_erase_if (mergeDrop a) (keysA b.entries) _ d,
        lookupA_foldl_insert_if (mergeKeep a) hsb a.entries d,
        lookupA_foldl_insert_if (mergeKeep b) hsa b.entries d]
    cases hLa : lookupA a.entries d with
    | none =>
      have hma : d ∉ keysA a.entries := (lookupA_eq_none_iff _ _).mp hLa
      cases hLb : lookupA b.entries d with
      | none =>
        have hmb : d ∉ keysA b.entries := (lookupA_eq_none_iff _ _).mp hLb
        simp [hma, hmb, hLa, hLb]
      | some y =>
        have hmb : d ∈ keysA b.entries := mem_keysA_of_lookupA hLb
        cases hCa : a.ctx.contains d <;>
          simp [hma, hmb, mergeKeep, mergeDrop, containsKeyA, hLa, hLb, hCa]
    | some x =>
      have hma : d ∈ keysA a.entries := mem_keysA_of_lookupA hLa
      cases hLb : lookupA b.entries d with
      | none =>
        have hmb : d ∉ keysA b.entries := (lookupA_eq_none_iff _ _).mp hLb
        cases hCb : b.ctx.contains d <;>
          simp [hma, hmb, mergeKeep, mergeDrop, containsKeyA, hLa, hLb, hCb]
      | some y =>
        have hxy : x = y := hpatch _ (lookupA_mem hLa) _ (lookupA_mem hLb) rfl
        subst hxy
        have hmb : d ∈ keysA b.entries := mem_keysA_of_lookupA hLb
        simp [hma, hmb, mergeKeep, mergeDrop, containsKeyA, hLa, hLb]
  have hctxeq : a.ctx.merge b.ctx = b.ctx.merge a.ctx :=
    dotCtx_merge_comm hca hcb hda hdb
  calc a.merge b = ⟨a.ctx.merge b.ctx, (a.merge b).entries⟩ := rfl
    _ = ⟨b.ctx.merge a.ctx, (b.merge a).entries⟩ := by rw [hctxeq, hent]
    _ = b.merge a := rfl

/-- A concrete kernel for the C1 witness: replica 1 wrote dot (1,1), and the
cloud holds the loose dot (3,4). -/
def c1KernelA : DotKernel ℕ :=
  { ctx := { clock := [(1, 2)], dot_cloud := [⟨3, 4⟩] },
    entries := [(⟨1, 1⟩, 5), (⟨3, 4⟩, 9)] }

/-- A concrete kernel for the C1 witness sharing dot (1,1) at the same value. -/
def c1KernelB : DotKernel ℕ :=
  { ctx := { clock := [(2, 1)], dot_cloud := [] },
    entries := [(⟨1, 1⟩, 5), (⟨2, 1⟩, 7)] }

/-- Witness for C1 at two concrete patched kernels. -/
theorem C1_witness : DotKernel.merge c1KernelA c1KernelB = DotKernel.merge c1KernelB c1KernelA :=
  C1_dotKernel_merge_comm c1KernelA c1KernelB (by decide) (by decide) (by decide)
    (by decide) (by decide) (by decide) (by decide)

/-! ## The compaction invariant (claim C4) -/

theorem Dot.lt_def (a b : Dot) :
    a < b ↔ (a.replica < b.replica ∨ (a.replica = b.replica ∧ a.n < b.n)) :=
  Iff.rfl

/-- The clock entry of a replica is untouched by the sweep as long as every
remaining dot of that replica is already strictly beyond `clock[r] + 1`. -/
theorem compactGo_clock_stable (l : List Dot) (c : VectorClock) (r : ReplicaId)
    (h : ∀ e ∈ l, e.replica = r → lookupD c r 0 + 1 < e.n) :
    lookupD (compactGo c l).1 r 0 = lookupD c r 0 := by
  induction l generalizing c with
  | nil => rfl
  | cons e t ih =>
    rw [compactGo]
    by_cases h1 : e.n = lookupD c e.replica 0 + 1
    · have hner : e.replica ≠ r := by
        intro hr
        have hh := h e (List.mem_cons_self _ _) hr
        rw [hr] at h1
        omega
      rw [if_pos h1]
      have hc2 : lookupD (insertA c e.replica e.n) r 0 = lookupD c r 0 := by
        rw [lookupD, lookupA_insertA_ne c e.replica r e.n (fun hh => hner hh.symm), ← lookupD]
      rw [ih (insertA c e.replica e.n) ?_, hc2]
      intro x hx hxr
      rw [hc2]
      exact h x (List.mem_cons_of_mem _ hx) hxr
    · rw [if_neg h1]
      by_cases h2 : e.n ≤ lookupD c e.replica 0
      · rw [if_pos h2]
        exact ih c (fun x hx hxr => h x (List.mem_cons_of_mem _ hx) hxr)
      · rw [if_neg h2]
        exact ih c (fun x hx hxr => h x (List.mem_cons_of_mem _ hx) hxr)

/-- Every dot the sweep keeps is strictly beyond the final clock plus one. -/
theorem compactGo_final_gt (l : List Dot) (c : VectorClock) (hs : SortedSet l) :
    ∀ d ∈ (compactGo c l).2, lookupD (compactGo c l).1 d.replica 0 + 1 < d.n := by
  induction l generalizing c with
  | nil =>
    intro d hd
    simp [compactGo] at hd
  | cons e t ih =>
    rw [SortedSet, List.pairwise_cons] at hs
    rw [compactGo]
    by_cases h1 : e.n = lookupD c e.replica 0 + 1
    · rw [if_pos h1]
      exact ih _ hs.2
    · rw [if_neg h1]
      by_cases h2 : e.n ≤ lookupD c e.replica 0
      · rw [if_pos h2]
        exact ih _ hs.2
      · rw [if_neg h2]
        intro d hd
        rcases List.mem_cons.mp hd with rfl | hd
        · have hstable : lookupD (compactGo c t).1 d.replica 0 = lookupD c d.replica 0 := by
            refine compactGo_clock_stable t c d.replica (fun x hx hxr => ?_)
            have hlt := hs.1 x hx
            rw [Dot.lt_def] at hlt
            have hdn : lookupD c d.replica 0 + 1 < d.n := by omega
            rcases hlt with hlt2 | hlt2
            · exact absurd (hxr ▸ hlt2) (lt_irrefl _)
            · exact lt_trans hdn hlt2.2
          rw [hstable]
          omega
        · exact ih _ hs.2 d hd

/-- A sweep over a cloud whose dots are all strictly beyond `clock[r] + 1`
changes nothing. -/
theorem compactGo_keepAll (l : List Dot) (c : VectorClock)
    (h : ∀ d ∈ l, lookupD c d.replica 0 + 1 < d.n) :
    compactGo c l = (c, l) := by
  induction l with
  | nil => rfl
  | cons e t ih =>
    have he := h e (List.mem_cons_self _ _)
    rw [compactGo, if_neg (by omega), if_neg (by omega),
      ih (fun d hd => h d (List.mem_cons_of_mem _ hd))]

/-- C4: after `compact()` the dot cloud contains no dot `(r, n)` with
`n ≤ clock[r]` and no dot `(r, clock[r] + 1)` (where `clock[r]` reads the
compacted clock with default 0, as the Rust code does), and `compact` is
idempotent.  The hypothesis is the `BTreeSet` representation invariant of the
cloud, which also fixes the in-order iteration of the single sweep. -/
theorem C4_dotCtx_compact_spec (ctx : DotCtx) (hs : SortedSet ctx.dot_cloud) :
    (∀ d ∈ ctx.compact.dot_cloud,
        ¬(d.n ≤ lookupD ctx.compact.clock d.replica 0) ∧
        d.n ≠ lookupD ctx.compact.clock d.replica 0 + 1) ∧
    ctx.compact.compact = ctx.compact := by
  have hmain : ∀ d ∈ ctx.compact.dot_cloud,
      lookupD ctx.compact.clock d.replica 0 + 1 < d.n :=
    compactGo_final_gt ctx.dot_cloud ctx.clock hs
  constructor
  · intro d hd
    have hh := hmain d hd
    exact ⟨by omega, by omega⟩
  · have h2 : compactGo ctx.compact.clock ctx.compact.dot_cloud =
        (ctx.compact.clock, ctx.compact.dot_cloud) :=
      compactGo_keepAll _ _ hmain
    show DotCtx.mk (compactGo ctx.compact.clock ctx.compact.dot_cloud).1
        (compactGo ctx.compact.clock ctx.compact.dot_cloud).2 = ctx.compact
    rw [h2]

/-- A concrete context for the C4 witness: clock `{1 ↦ 1}`, cloud
`{(1,2), (1,5), (2,1)}`; compaction promotes `(1,2)` and `(2,1)`. -/
def c4Ctx : DotCtx :=
  { clock := [(1, 1)], dot_cloud := [⟨1, 2⟩, ⟨1, 5⟩, ⟨2, 1⟩] }

/-- Witness for C4 at a concrete context. -/
theorem C4_witness :
    (∀ d ∈ c4Ctx.compact.dot_cloud,
        ¬(d.n ≤ lookupD c4Ctx.compact.clock d.replica 0) ∧
        d.n ≠ lookupD c4Ctx.compact.clock d.replica 0 + 1) ∧
    c4Ctx.compact.compact = c4Ctx.compact :=
  C4_dotCtx_compact_spec c4Ctx (by decide)

/-! ## `GrowCounter` of `sypytkowski-blog/src/state/grow_counter.rs` (claim C9) -/

/-- `GrowCounter { map: BTreeMap<ReplicaId, i64> }`. -/
structure GrowCounter where
  map : List (ReplicaId × Int)
deriving DecidableEq, Repr

/-- `GrowCounter::value`: `self.map.values().fold(0, |acc, val| acc + val)`. -/
def GrowCounter.value (g : GrowCounter) : Int :=
  g.map.foldl (fun acc kv => acc + kv.2) 0

/-- `GrowCounter::increment`: `*self.map.entry(replica).or_insert(0)` — reads
the entry, inserting `0` when absent, and returns it.  The Rust method
mutates `self`, so the updated counter is returned alongside the returned
`i64`. -/
def GrowCounter.increment (g : GrowCounter) (replica : ReplicaId) : GrowCounter × Int :=
  match lookupA g.map replica with
  | some v => (g, v)
  | none => ({ map := insertA g.map replica 0 }, 0)

theorem foldl_add_snd (l : List (ReplicaId × Int)) (c : Int) :
    l.foldl (fun acc kv => acc + kv.2) c = c + (l.map Prod.snd).sum := by
  induction l generalizing c with
  | nil => simp
  | cons hd t ih =>
    rw [List.foldl_cons, ih]
    simp
    ring

theorem sum_snd_insertA_absent (l : List (ReplicaId × Int)) (k : ReplicaId)
    (v : Int) (h : lookupA l k = none) :
    ((insertA l k v).map Prod.snd).sum = v + (l.map Prod.snd).sum := by
  induction l with
  | nil => simp [insertA]
  | cons hd t ih =>
    obtain ⟨k1, v1⟩ := hd
    rw [lookupA] at h
    by_cases hk : k = k1
    · rw [if_pos hk] at h
      exact Option.noConfusion h
    · rw [if_neg hk] at h
      by_cases h1 : k < k1
      · rw [insertA, if_pos h1]
        simp
      · rw [insertA, if_neg h1, if_neg hk]
        simp only [List.map_cons, List.sum_cons, ih h]
        ring

/-- C9: `GrowCounter::increment` never changes `value()`: it only inserts the
entry for `r` with value `0` when absent and returns the stored value, so the
counter is never actually incremented. -/
theorem C9_growCounter_increment_noop (g : GrowCounter) (r : ReplicaId) :
    (g.increment r).1.value = g.value ∧
    (g.increment r).2 = lookupD g.map r 0 ∧
    (g.increment r).1.map =
      (if containsKeyA g.map r then g.map else insertA g.map r 0) := by
  cases hl : lookupA g.map r with
  | some v =>
    refine ⟨?_, ?_, ?_⟩
    · show (GrowCounter.increment g r).1.value = g.value
      rw [GrowCounter.increment, hl]
    · show (GrowCounter.increment g r).2 = lookupD g.map r 0
      rw [GrowCounter.increment, hl, lookupD, hl]
      rfl
    · show (GrowCounter.increment g r).1.map = _
      rw [GrowCounter.increment, hl, if_pos (by rw [containsKeyA, hl]; rfl)]
  | none =>
    refine ⟨?_, ?_, ?_⟩
    · show (GrowCounter.increment g r).1.value = g.value
      rw [GrowCounter.increment, hl]
      show GrowCounter.value ⟨insertA g.map r 0⟩ = g.value
      rw [GrowCounter.value, GrowCounter.value, foldl_add_snd, foldl_add_snd,
        sum_snd_insertA_absent g.map r 0 hl]
      ring
    · show (GrowCounter.increment g r).2 = lookupD g.map r 0
      rw [GrowCounter.increment, hl, lookupD, hl]
      rfl
    · show (GrowCounter.increment g r).1.map = _
      rw [GrowCounter.increment, hl,
        if_neg (by rw [containsKeyA, hl]; exact Bool.noConfusion)]

/-! ## `GCounter` / `PNCounter` deltas (claim C8)

`sypytkowski-blog/src/delta_state/pncounter.rs` imports
`super::gcounter::GCounter`; the `GCounter` with the matching
`split -> (Self, Option<Box<GCounter>>)` interface is
`sypytkowski-convergent/src/delta_state/gcounter.rs`, embedded here. -/

/-- `GCounter { values: BTreeMap<ReplicaId, i64>, delta: Option<Box<GCounter>> }`. -/
inductive GCounter where
  | mk (values : List (ReplicaId × Int)) (delta : Option GCounter)

/-- Field accessor for `values`. -/
def GCounter.values : GCounter → List (ReplicaId × Int)
  | .mk values _ => values

/-- Field accessor for `delta`. -/
def GCounter.delta : GCounter → Option GCounter
  | .mk _ delta => delta

/-- `GCounter::default()`. -/
def GCounter.default : GCounter := .mk [] none

/-- `GCounter::split`: full state with the delta cleared, plus the delta. -/
def GCounter.split (g : GCounter) : GCounter × Option GCounter :=
  (.mk g.values none, g.delta)

/-- `PNCounter { inc: GCounter, dec: GCounter }` of
`sypytkowski-blog/src/delta_state/pncounter.rs`. -/
structure PNCounter where
  inc : GCounter
  dec : GCounter

/-- `PNCounter::split`: note that the Rust source computes
`let (dec, dec_deltas) = self.inc.split();` — both components split
`self.inc`. -/
def PNCounter.split (c : PNCounter) : PNCounter × Option PNCounter :=
  let p1 := c.inc.split
  let p2 := c.inc.split
  let deltas : Option PNCounter :=
    match p1.2, p2.2 with
    | none, none => none
    | a, b => some { inc := a.getD GCounter.default, dec := b.getD GCounter.default }
  ({ inc := p1.1, dec := p2.1 }, deltas)

/-- C8: `PNCounter::split` returns a base counter whose `dec` component equals
the `inc` component with its delta cleared (not the `dec` component), and the
returned delta's `dec` part is taken from the delta of the `inc` component;
the original `dec` component and its delta are discarded (the result does not
depend on `dec` at all). -/
theorem C8_pnCounter_split_uses_inc_twice (c : PNCounter) :
    c.split.1.dec = GCounter.mk c.inc.values none ∧
    c.split.1.inc = GCounter.mk c.inc.values none ∧
    c.split.2 = (c.inc.delta.map fun d => { inc := d, dec := d }) ∧
    (∀ g : GCounter, PNCounter.split { inc := c.inc, dec := g } = c.split) := by
  obtain ⟨inc, dec⟩ := c
  obtain ⟨vals, delta⟩ := inc
  cases delta <;>
    simp [PNCounter.split, GCounter.split, GCounter.values, GCounter.delta,
      GCounter.default]

/-! ## `VPtr::compare` of `sypytkowski-commutative/src/lseq.rs` (claim C10) -/

/-- Rust `Ord::cmp` on integers. -/
def cmpNat (a b : ℕ) : Ordering :=
  if a < b then .lt else if a = b then .eq else .gt

/-- Rust lexicographic `Ord::cmp` on `Vec<u8>`. -/
def cmpSeq : List ℕ → List ℕ → Ordering
  | [], [] => .eq
  | [], _ :: _ => .lt
  | _ :: _, [] => .gt
  | x :: xs, y :: ys =>
    match cmpNat x y with
    | .eq => cmpSeq xs ys
    | o => o

/-- `VPtr { sequence: Vec<u8>, id: ReplicaId }`. -/
structure VPtr where
  sequence : List ℕ
  id : ReplicaId
deriving DecidableEq, Repr

/-- `VPtr::compare`: compare sequence lengths first; on equal lengths return
the comparison of the replica ids, otherwise compare the byte sequences. -/
def VPtr.compare (a b : VPtr) : Ordering :=
  match cmpNat a.sequence.length b.sequence.length with
  | .eq => cmpNat a.id b.id
  | _ => cmpSeq a.sequence b.sequence

/-- C10: on pointers with equal-length sequences `VPtr::compare` returns the
comparison of the replica ids and never inspects the bytes; in particular two
distinct pointers with the same id and different equal-length sequences
compare as `Equal`, so the comparator is not antisymmetric. -/
theorem C10_vptr_compare_ignores_bytes :
    (∀ a b : VPtr, a.sequence.length = b.sequence.length →
      VPtr.compare a b = cmpNat a.id b.id) ∧
    VPtr.compare ⟨[0], 5⟩ ⟨[1], 5⟩ = .eq ∧ (⟨[0], 5⟩ : VPtr) ≠ ⟨[1], 5⟩ := by
  refine ⟨fun a b h => ?_, by decide, by decide⟩
  rw [VPtr.compare, h, cmpNat, if_neg (lt_irrefl _), if_pos rfl]

/-- Witness for C10 at two concrete equal-length pointers. -/
theorem C10_witness : VPtr.compare ⟨[0, 1], 7⟩ ⟨[9, 9], 7⟩ = cmpNat 7 7 :=
  C10_vptr_compare_ignores_bytes.1 ⟨[0, 1], 7⟩ ⟨[9, 9], 7⟩ rfl

/-! ## `VTime` of `sypytkowski-commutative/src/lib.rs` (claim C7) -/

/-- `VTime { map: BTreeMap<ReplicaId, u64> }`, embedded as its sorted entry
list. -/
abbrev VTime := List (ReplicaId × ℕ)

/-- One step of the fold in `VTime::partial_ord_impl`, with missing keys read
as zero (`copied().unwrap_or_default()`). -/
def vtimeStep (a b : VTime) (prev : Option Ordering) (key : ReplicaId) : Option Ordering :=
  match prev with
  | some .eq =>
      if lookupD a key 0 > lookupD b key 0 then some .gt
      else if lookupD a key 0 < lookupD b key 0 then some .lt
      else prev
  | some .lt => if lookupD a key 0 > lookupD b key 0 then none else prev
  | some .gt => if lookupD a key 0 < lookupD b key 0 then none else prev
  | none => prev

/-- `VTime::partial_ord_impl`: a single fold over `a.keys().chain(b.keys())`
starting from `Some(Equal)`. -/
def partial_ord_impl (a b : VTime) : Option Ordering :=
  (keysA a ++ keysA b).foldl (vtimeStep a b) (some .eq)

/-- The meet the fold step computes: `Some(Equal)` is the identity, `None`
absorbs, `Less`/`Greater` clash to `None`. -/
def combineOrd : Option Ordering → Option Ordering → Option Ordering
  | none, _ => none
  | some .eq, o => o
  | some .lt, some .gt => none
  | some .lt, none => none
  | some .lt, _ => some .lt
  | some .gt, some .lt => none
  | some .gt, none => none
  | some .gt, _ => some .gt

theorem vtimeStep_eq_combineOrd (a b : VTime) (prev : Option Ordering) (k : ReplicaId) :
    vtimeStep a b prev k =
      combineOrd prev (some (cmpNat (lookupD a k 0) (lookupD b k 0))) := by
  rcases Nat.lt_trichotomy (lookupD a k 0) (lookupD b k 0) with h | h | h
  · have hgt : ¬ lookupD a k 0 > lookupD b k 0 := by omega
    rw [show cmpNat (lookupD a k 0) (lookupD b k 0) = .lt from by rw [cmpNat, if_pos h]]
    rcases prev with _ | o
    · rfl
    · cases o
      · rw [vtimeStep, if_neg hgt]; rfl
      · rw [vtimeStep, if_neg hgt, if_pos h]; rfl
      · rw [vtimeStep, if_pos h]; rfl
  · have hgt : ¬ lookupD a k 0 > lookupD b k 0 := by omega
    have hlt : ¬ lookupD a k 0 < lookupD b k 0 := by omega
    rw [show cmpNat (lookupD a k 0) (lookupD b k 0) = .eq from by
      rw [cmpNat, if_neg hlt, if_pos h]]
    rcases prev with _ | o
    · rfl
    · cases o
      · rw [vtimeStep, if_neg hgt]; rfl
      · rw [vtimeStep, if_neg hgt, if_neg hlt]; rfl
      · rw [vtimeStep, if_neg hlt]; rfl
  · have hlt : ¬ lookupD a k 0 < lookupD b k 0 := by omega
    have hne : ¬ lookupD a k 0 = lookupD b k 0 := by omega
    rw [show cmpNat (lookupD a k 0) (lookupD b k 0) = .gt from by
      rw [cmpNat, if_neg hlt, if_neg hne]]
    rcases prev with _ | o
    · rfl
    · cases o
      · rw [vtimeStep, if_pos h]; rfl
      · rw [vtimeStep, if_pos h]; rfl
      · rw [vtimeStep, if_neg hlt]; rfl

theorem combineOrd_assoc (x y z : Option Ordering) :
    combineOrd (combineOrd x y) z = combineOrd x (combineOrd y z) := by
  rcases x with _ | x
  · rfl
  · rcases y with _ | y
    · cases x <;> rfl
    · rcases z with _ | z
      · cases x <;> cases y <;> rfl
      · cases x <;> cases y <;> cases z <;> rfl

theorem combineOrd_eq_right (x : Option Ordering) : combineOrd x (some .eq) = x := by
  rcases x with _ | x
  · rfl
  · cases x <;> rfl

theorem foldl_vtimeStep_init (a b : VTime) (l : List ReplicaId) (s : Option Ordering) :
    l.foldl (vtimeStep a b) s =
      combineOrd s (l.foldl (vtimeStep a b) (some .eq)) := by
  induction l generalizing s with
  | nil => simp [combineOrd_eq_right]
  | cons k t ih =>
    rw [List.foldl_cons, List.foldl_cons, ih (vtimeStep a b s k),
      ih (vtimeStep a b (some .eq) k), vtimeStep_eq_combineOrd a b s k,
      vtimeStep_eq_combineOrd a b (some .eq) k, combineOrd_assoc]
    rfl

/-- The fold, started from `Some(Equal)`, computes the pointwise comparison
summary of the keys visited. -/
theorem vtimeFold_spec (a b : VTime) (l : List ReplicaId) :
    match l.foldl (vtimeStep a b) (some .eq) with
    | some .eq => ∀ k ∈ l, lookupD a k 0 = lookupD b k 0
    | some .lt => (∀ k ∈ l, lookupD a k 0 ≤ lookupD b k 0) ∧
        (∃ k ∈ l, lookupD a k 0 < lookupD b k 0)
    | some .gt => (∀ k ∈ l, lookupD b k 0 ≤ lookupD a k 0) ∧
        (∃ k ∈ l, lookupD b k 0 < lookupD a k 0)
    | none => (∃ k ∈ l, lookupD a k 0 < lookupD b k 0) ∧
        (∃ k ∈ l, lookupD b k 0 < lookupD a k 0) := by
  induction l with
  | nil => intro k hk; simp at hk
  | cons k t ih =>
    rw [List.foldl_cons, foldl_vtimeStep_init a b t (vtimeStep a b (some .eq) k),
      vtimeStep_eq_combineOrd a b (some .eq) k]
    rw [show combineOrd (some .eq) (some (cmpNat (lookupD a k 0) (lookupD b k 0))) =
      some (cmpNat (lookupD a k 0) (lookupD b k 0)) from rfl]
    revert ih
    cases hF : t.foldl (vtimeStep a b) (some .eq) with
    | none =>
      intro ih
      rcases Nat.lt_trichotomy (lookupD a k 0) (lookupD b k 0) with h | h | h <;>
        [rw [show cmpNat (lookupD a k 0) (lookupD b k 0) = .lt from by
          rw [cmpNat, if_pos h]];
         rw [show cmpNat (lookupD a k 0) (lookupD b k 0) = .eq from by
          rw [cmpNat, if_neg (by omega), if_pos h]];
         rw [show cmpNat (lookupD a k 0) (lookupD b k 0) = .gt from by
          rw [cmpNat, if_neg (by omega), if_neg (by omega)]]] <;>
      · show (∃ x ∈ k :: t, lookupD a x 0 < lookupD b x 0) ∧
          (∃ x ∈ k :: t, lookupD b x 0 < lookupD a x 0)
        obtain ⟨⟨x1, hx1, hv1⟩, ⟨x2, hx2, hv2⟩⟩ := ih
        exact ⟨⟨x1, List.mem_cons_of_mem _ hx1, hv1⟩,
               ⟨x2, List.mem_cons_of_mem _ hx2, hv2⟩⟩
    | some F =>
      cases F with
      | eq =>
        intro ih
        rcases Nat.lt_trichotomy (lookupD a k 0) (lookupD b k 0) with h | h | h
        · rw [show cmpNat (lookupD a k 0) (lookupD b k 0) = .lt from by
            rw [cmpNat, if_pos h]]
          show (∀ x ∈ k :: t, lookupD a x 0 ≤ lookupD b x 0) ∧
            (∃ x ∈ k :: t, lookupD a x 0 < lookupD b x 0)
          constructor
          · intro x hx
            rcases List.mem_cons.mp hx with rfl | hx
            · omega
            · exact le_of_eq (ih x hx)
          · exact ⟨k, List.mem_cons_self _ _, h⟩
        · rw [show cmpNat (lookupD a k 0) (lookupD b k 0) = .eq from by
            rw [cmpNat, if_neg (by omega), if_pos h]]
          show ∀ x ∈ k :: t, lookupD a x 0 = lookupD b x 0
          intro x hx
          rcases List.mem_cons.mp hx with rfl | hx
          · exact h
          · exact ih x hx
        · rw [show cmpNat (lookupD a k 0) (lookupD b k 0) = .gt from by
            rw [cmpNat, if_neg (by omega), if_neg (by omega)]]
          show (∀ x ∈ k :: t, lookupD b x 0 ≤ lookupD a x 0) ∧
            (∃ x ∈ k :: t, lookupD b x 0 < lookupD a x 0)
          constructor
          · intro x hx
            rcases List.mem_cons.mp hx with rfl | hx
            · omega
            · exact le_of_eq (ih x hx).symm
          · exact ⟨k, List.mem_cons_self _ _, h⟩
      | lt =>
        intro ih
        obtain ⟨ihle, x0, hx0, hv0⟩ := ih
        rcases Nat.lt_trichotomy (lookupD a k 0) (lookupD b k 0) with h | h | h
        · rw [show cmpNat (lookupD a k 0) (lookupD b k 0) = .lt from by
            rw [cmpNat, if_pos h]]
          show (∀ x ∈ k :: t, lookupD a x 0 ≤ lookupD b x 0) ∧
            (∃ x ∈ k :: t, lookupD a x 0 < lookupD b x 0)
          constructor
          · intro x hx
            rcases List.mem_cons.mp hx with rfl | hx
            · omega
            · exact ihle x hx
          · exact ⟨k, List.mem_cons_self _ _, h⟩
        · rw [show cmpNat (lookupD a k 0) (lookupD b k 0) = .eq from by
            rw [cmpNat, if_neg (by omega), if_pos h]]
          show (∀ x ∈ k :: t, lookupD a x 0 ≤ lookupD b x 0) ∧
            (∃ x ∈ k :: t, lookupD a x 0 < lookupD b x 0)
          constructor
          · intro x hx
            rcases List.mem_cons.mp hx with rfl | hx
            · omega
            · exact ihle x hx
          · exact ⟨x0, List.mem_cons_of_mem _ hx0, hv0⟩
        · rw [show cmpNat (lookupD a k 0) (lookupD b k 0) = .gt from by
            rw [cmpNat, if_neg (by omega), if_neg (by omega)]]
          show (∃ x ∈ k :: t, lookupD a x 0 < lookupD b x 0) ∧
            (∃ x ∈ k :: t, lookupD b x 0 < lookupD a x 0)
          exact ⟨⟨x0, List.mem_cons_of_mem _ hx0, hv0⟩,
                 ⟨k, List.mem_cons_self _ _, h⟩⟩
      | gt =>
        intro ih
        obtain ⟨ihle, x0, hx0, hv0⟩ := ih
        rcases Nat.lt_trichotomy (lookupD a k 0) (lookupD b k 0) with h | h | h
        · rw [show cmpNat (lookupD a k 0) (lookupD b k 0) = .lt from by
            rw [cmpNat, if_pos h]]
          show (∃ x ∈ k :: t, lookupD a x 0 < lookupD b x 0) ∧
            (∃ x ∈ k :: t, lookupD b x 0 < lookupD a x 0)
          exact ⟨⟨k, List.mem_cons_self _ _, h⟩,
                 ⟨x0, List.mem_cons_of_mem _ hx0, hv0⟩⟩
        · rw [show cmpNat (lookupD a k 0) (lookupD b k 0) = .eq from by
            rw [cmpNat, if_neg (by omega), if_pos h]]
          show (∀ x ∈ k :: t, lookupD b x 0 ≤ lookupD a x 0) ∧
            (∃ x ∈ k :: t, lookupD b x 0 < lookupD a x 0)
          constructor
          · intro x hx
            rcases List.mem_cons.mp hx with rfl | hx
            · omega
            · exact ihle x hx
          · exact ⟨x0, List.mem_cons_of_mem _ hx0, hv0⟩
        · rw [show cmpNat (lookupD a k 0) (lookupD b k 0) = .gt from by
            rw [cmpNat, if_neg (by omega), if_neg (by omega)]]
          show (∀ x ∈ k :: t, lookupD b x 0 ≤ lookupD a x 0) ∧
            (∃ x ∈ k :: t, lookupD b x 0 < lookupD a x 0)
          constructor
          · intro x hx
            rcases List.mem_cons.mp hx with rfl | hx
            · omega
            · exact ihle x hx
          · exact ⟨k, List.mem_cons_self _ _, h⟩

/-- C7: `VTime::partial_cmp` (missing keys read as 0) returns `Equal` iff all
components are equal, `Less` iff pointwise `≤` with some component strict,
`Greater` symmetrically, and `None` (concurrent) iff some component is
strictly greater and another strictly less. -/
theorem C7_vtime_partial_cmp_spec (a b : VTime) :
    (partial_ord_impl a b = some .eq ↔
      ∀ r : ReplicaId, lookupD a r 0 = lookupD b r 0) ∧
    (partial_ord_impl a b = some .lt ↔
      ((∀ r : ReplicaId, lookupD a r 0 ≤ lookupD b r 0) ∧
       ∃ r : ReplicaId, lookupD a r 0 < lookupD b r 0)) ∧
    (partial_ord_impl a b = some .gt ↔
      ((∀ r : ReplicaId, lookupD b r 0 ≤ lookupD a r 0) ∧
       ∃ r : ReplicaId, lookupD b r 0 < lookupD a r 0)) ∧
    (partial_ord_impl a b = none ↔
      ((∃ r : ReplicaId, lookupD a r 0 < lookupD b r 0) ∧
       ∃ r : ReplicaId, lookupD b r 0 < lookupD a r 0)) := by
  have hout : ∀ r : ReplicaId, r ∉ keysA a ++ keysA b →
      lookupD a r 0 = lookupD b r 0 := by
    intro r hr
    rw [List.mem_append] at hr
    push_neg at hr
    have h1 : lookupA a r = none := (lookupA_eq_none_iff a r).mpr hr.1
    have h2 : lookupA b r = none := (lookupA_eq_none_iff b r).mpr hr.2
    rw [lookupD, lookupD, h1, h2]
  have heqf : partial_ord_impl a b = some .eq →
      ∀ r : ReplicaId, lookupD a r 0 = lookupD b r 0 := by
    intro hP r
    have hspec := vtimeFold_spec a b (keysA a ++ keysA b)
    rw [partial_ord_impl] at hP
    rw [hP] at hspec
    by_cases hm : r ∈ keysA a ++ keysA b
    · exact hspec r hm
    · exact hout r hm
  have hltf : partial_ord_impl a b = some .lt →
      (∀ r : ReplicaId, lookupD a r 0 ≤ lookupD b r 0) ∧
      ∃ r : ReplicaId, lookupD a r 0 < lookupD b r 0 := by
    intro hP
    have hspec := vtimeFold_spec a b (keysA a ++ keysA b)
    rw [partial_ord_impl] at hP
    rw [hP] at hspec
    obtain ⟨hle, x, hx, hv⟩ := hspec
    refine ⟨fun r => ?_, ⟨x, hv⟩⟩
    by_cases hm : r ∈ keysA a ++ keysA b
    · exact hle r hm
    · exact le_of_eq (hout r hm)
  have hgtf : partial_ord_impl a b = some .gt →
      (∀ r : ReplicaId, lookupD b r 0 ≤ lookupD a r 0) ∧
      ∃ r : ReplicaId, lookupD b r 0 < lookupD a r 0 := by
    intro hP
    have hspec := vtimeFold_spec a b (keysA a ++ keysA b)
    rw [partial_ord_impl] at hP
    rw [hP] at hspec
    obtain ⟨hle, x, hx, hv⟩ := hspec
    refine ⟨fun r => ?_, ⟨x, hv⟩⟩
    by_cases hm : r ∈ keysA a ++ keysA b
    · exact hle r hm
    · exact le_of_eq (hout r hm).symm
  have hnonef : partial_ord_impl a b = none →
      (∃ r : ReplicaId, lookupD a r 0 < lookupD b r 0) ∧
      ∃ r : ReplicaId, lookupD b r 0 < lookupD a r 0 := by
    intro hP
    have hspec := vtimeFold_spec a b (keysA a ++ keysA b)
    rw [partial_ord_impl] at hP
    rw [hP] at hspec
    obtain ⟨⟨x1, hx1, hv1⟩, x2, hx2, hv2⟩ := hspec
    exact ⟨⟨x1, hv1⟩, ⟨x2, hv2⟩⟩
  refine ⟨⟨heqf, fun hAll => ?_⟩, ⟨hltf, fun hLt => ?_⟩,
    ⟨hgtf, fun hGt => ?_⟩, ⟨hnonef, fun hConc => ?_⟩⟩
  · cases hP : partial_ord_impl a b with
    | none =>
      obtain ⟨⟨x, hx⟩, _⟩ := hnonef hP
      have := hAll x
      omega
    | some o =>
      cases o with
      | eq => rfl
      | lt =>
        obtain ⟨_, x, hx⟩ := hltf hP
        have := hAll x
        omega
      | gt =>
        obtain ⟨_, x, hx⟩ := hgtf hP
        have := hAll x
        omega
  · obtain ⟨hle, x0, hx0⟩ := hLt
    cases hP : partial_ord_impl a b with
    | none =>
      obtain ⟨_, x, hx⟩ := hnonef hP
      have := hle x
      omega
    | some o =>
      cases o with
      | eq =>
        have := heqf hP x0
        omega
      | lt => rfl
      | gt =>
        obtain ⟨_, x, hx⟩ := hgtf hP
        have := hle x
        omega
  · obtain ⟨hle, x0, hx0⟩ := hGt
    cases hP : partial_ord_impl a b with
    | none =>
      obtain ⟨⟨x, hx⟩, _⟩ := hnonef hP
      have := hle x
      omega
    | some o =>
      cases o with
      | eq =>
        have := heqf hP x0
        omega
      | lt =>
        obtain ⟨hle2, _⟩ := hltf hP
        have := hle2 x0
        omega
      | gt => rfl
  · obtain ⟨⟨x1, hx1⟩, x2, hx2⟩ := hConc
    cases hP : partial_ord_impl a b with
    | none => rfl
    | some o =>
      cases o with
      | eq =>
        have := heqf hP x1
        omega
      | lt =>
        obtain ⟨hle, _⟩ := hltf hP
        have := hle x2
        omega
      | gt =>
        obtain ⟨hle, _⟩ := hgtf hP
        have := hle x1
        omega

/-! ## `Event`, `LWWRegister::effect` (claim C6) -/

/-- `Event<D> { origin, origin_seq, local_seq, version, data }`. -/
structure Event (D : Type) where
  origin : ReplicaId
  origin_seq : ℕ
  local_seq : ℕ
  version : VTime
  data : D
deriving DecidableEq, Repr

/-- `LWWRegister<V> { id, time, value }` of
`sypytkowski-commutative/src/lwwreg.rs`. -/
structure LWWRegister (V : Type) where
  id : ReplicaId
  time : VTime
  value : Option V
deriving DecidableEq, Repr

/-- `LWWRegister::effect` in a debug build: `none` models the
`#[cfg(debug_assertions)] panic!` on `Ordering::Equal | Ordering::Greater`. -/
def LWWRegister.effect {V : Type} (self : LWWRegister V) (event : Event (Option V)) :
    Option (LWWRegister V) :=
  match partial_ord_impl self.time event.version with
  | some .lt => some { self with time := event.version, value := event.data }
  | none =>
      if self.id ≥ event.origin then
        some { self with time := event.version, value := event.data }
      else some self
  | some .eq => none
  | some .gt => none

/-- C6: `LWWRegister::effect` replaces the stored value and time when the
event version is strictly greater than the current time (`self.time < at`);
when concurrent it replaces iff `self.id ≥ event.origin` and otherwise leaves
the state unchanged; and it panics under debug assertions iff the event
version compares equal to or less than the current time. -/
theorem C6_lwwreg_effect_spec {V : Type} (self : LWWRegister V)
    (event : Event (Option V)) :
    (partial_ord_impl self.time event.version = some .lt →
      self.effect event =
        some { id := self.id, time := event.version, value := event.data }) ∧
    (partial_ord_impl self.time event.version = none →
      self.effect event =
        some (if event.origin ≤ self.id
          then { id := self.id, time := event.version, value := event.data }
          else self)) ∧
    (self.effect event = none ↔
      (partial_ord_impl self.time event.version = some .eq ∨
       partial_ord_impl self.time event.version = some .gt)) := by
  cases hP : partial_ord_impl self.time event.version with
  | none =>
    refine ⟨fun h => by simp at h, fun _ => ?_, ?_⟩
    · rw [LWWRegister.effect, hP]
      by_cases h : event.origin ≤ self.id
      · rw [if_pos h, if_pos h]
      · rw [if_neg h, if_neg h]
    · rw [LWWRegister.effect, hP]
      constructor
      · intro h
        by_cases hi : self.id ≥ event.origin
        · rw [if_pos hi] at h
          exact Option.noConfusion h
        · rw [if_neg hi] at h
          exact Option.noConfusion h
      · rintro (h | h) <;> exact Option.noConfusion h
  | some o =>
    cases o with
    | eq =>
      refine ⟨fun h => by simp at h, fun h => by simp at h, ?_⟩
      rw [LWWRegister.effect, hP]
      simp
    | lt =>
      refine ⟨fun _ => ?_, fun h => by simp at h, ?_⟩
      · rw [LWWRegister.effect, hP]
      · rw [LWWRegister.effect, hP]
        simp
    | gt =>
      refine ⟨fun h => by simp at h, fun h => by simp at h, ?_⟩
      rw [LWWRegister.effect, hP]
      simp

/-- A concrete register for the C6 witness: its time `{1 ↦ 2}` strictly
dominates the event version `{1 ↦ 1}`, the case forbidden under RCB. -/
def c6Reg : LWWRegister ℕ := { id := 0, time := [(1, 2)], value := some 3 }

/-- A concrete stale event for the C6 witness. -/
def c6Event : Event (Option ℕ) :=
  { origin := 2, origin_seq := 1, local_seq := 1, version := [(1, 1)], data := some 4 }

/-- Witness for C6: at the concrete stale event the debug build panics. -/
theorem C6_witness : c6Reg.effect c6Event = none :=
  (C6_lwwreg_effect_spec c6Reg c6Event).2.2.mpr (Or.inr (by decide))

/-! ## `Replicator::send` on `Protocol::Command` (claim C5) -/

/-- `VTime::increment`: `*self.map.entry(replica).or_default() += 1`. -/
def VTime.increment (t : VTime) (replica : ReplicaId) : VTime :=
  insertA t replica (lookupD t replica 0 + 1)

/-- `ReplicationState<C>` of `sypytkowski-commutative/src/lib.rs`; the CRDT
payload is abstract. -/
structure ReplicationState (σ : Type) where
  id : ReplicaId
  seq : ℕ
  version : VTime
  observed : List (ReplicaId × ℕ)
  crdt : σ

/-- `Protocol<Cmd, EData>` of `sypytkowski-commutative/src/protocol.rs`. -/
inductive Protocol (γ δ : Type) where
  | command (cmd : γ)
  | connect (replica_id : ReplicaId)
  | replicate (seq_nr : ℕ) (max_count : ℕ) (filter : VTime) (reply_to : ReplicaId)
  | replicated (fromId : ReplicaId) (to_seq_nr : ℕ) (events : List (Event δ))
  | noop

/-- The `Protocol::Command(cmd)` arm of `Replicator::send`: bump `state.seq`,
increment `state.version[state.id]`, `prepare` the data against the current
CRDT, build the event, persist it (`Store::save_events`, modelled by the
returned event list), apply it through `crdt.effect`, and reply `Noop`.
`prepare`/`effect` stand for the `Crdt` trait methods. -/
def sendCommand {σ γ δ : Type} (prepare : σ → γ → δ) (effect : σ → Event δ → σ)
    (st : ReplicationState σ) (cmd : γ) :
    ReplicationState σ × List (Event δ) × Protocol γ δ :=
  let seq := st.seq + 1
  let version := st.version.increment st.id
  let data := prepare st.crdt cmd
  let event : Event δ :=
    { origin := st.id, origin_seq := seq, local_seq := seq,
      version := version, data := data }
  ({ st with seq := seq, version := version, crdt := effect st.crdt event },
   [event], Protocol.noop)

/-- C5: sending `Protocol::Command(cmd)` returns `Noop` and produces exactly
one event with `origin` the replicator's own id,
`origin_seq = local_seq = old seq + 1`, and `version` the old version with
the own-id component incremented by 1; the event is persisted through the
store and applied through `crdt.effect`, and `state.seq` advances by exactly
one. -/
theorem C5_replicator_send_command {σ γ δ : Type} (prepare : σ → γ → δ)
    (effect : σ → Event δ → σ) (st : ReplicationState σ) (cmd : γ) :
    (sendCommand prepare effect st cmd).2.2 = Protocol.noop ∧
    (sendCommand prepare effect st cmd).2.1 =
      [{ origin := st.id, origin_seq := st.seq + 1, local_seq := st.seq + 1,
         version := st.version.increment st.id,
         data := prepare st.crdt cmd }] ∧
    (sendCommand prepare effect st cmd).1.seq = st.seq + 1 ∧
    (sendCommand prepare effect st cmd).1.version = st.version.increment st.id ∧
    lookupD ((sendCommand prepare effect st cmd).1.version) st.id 0 =
      lookupD st.version st.id 0 + 1 ∧
    (sendCommand prepare effect st cmd).1.crdt =
      effect st.crdt ({ origin := st.id, origin_seq := st.seq + 1,
                        local_seq := st.seq + 1,
                        version := st.version.increment st.id,
                        data := prepare st.crdt cmd }) ∧
    (sendCommand prepare effect st cmd).1.id = st.id ∧
    (sendCommand prepare effect st cmd).1.observed = st.observed := by
  refine ⟨rfl, rfl, rfl, rfl, ?_, rfl, rfl, rfl⟩
  show lookupD (VTime.increment st.version st.id) st.id 0 = lookupD st.version st.id 0 + 1
  rw [VTime.increment, lookupD, lookupA_insertA_self]
  rfl

/-! ## `MVReg::set` (claim C2) and `AWORSet::add` (claim C3) -/

/-- `MVReg<V> { core, delta }` of
`sypytkowski-blog/src/delta_state/mvreg.rs`. -/
structure MVReg (V : Type) where
  core : DotKernel V
  delta : Option (DotKernel V)
deriving DecidableEq, Repr

/-- `MVReg::set`: `delta.get_or_insert_default()`, then
`self.core.remove_all()` (which records tombstones only in `core.ctx`),
then `self.core.add(replica, value, delta)`. -/
def MVReg.set {V : Type} (self : MVReg V) (replica : ReplicaId) (value : V) :
    MVReg V :=
  let delta := self.delta.getD (DotKernel.default V)
  let core := self.core.remove_all
  let p := core.add replica value delta
  { core := p.1, delta := some p.2 }

/-- A register holding one live entry at dot (1,1), for the C2 failing
input. -/
def c2Reg : MVReg ℕ :=
  { core := { ctx := { clock := [(1, 1)], dot_cloud := [] },
              entries := [(⟨1, 1⟩, 42)] },
    delta := none }

/-- C2 (divergence of the code from the claim): after `set(2, 7)` on a
register whose single live entry has dot (1,1), the accumulated delta's
context does not contain the tombstone dot (1,1) — only the register's own
context does; the delta carries only the fresh dot (2,1). -/
theorem C2_set_delta_missing_tombstone :
    ((c2Reg.set 2 7).delta.getD (DotKernel.default ℕ)).ctx.contains ⟨1, 1⟩ = false ∧
    (c2Reg.set 2 7).core.ctx.contains ⟨1, 1⟩ = true ∧
    (c2Reg.set 2 7).delta =
      some { ctx := { clock := [(2, 1)], dot_cloud := [] },
             entries := [(⟨2, 1⟩, 7)] } := by
  decide

/-- `AWORSet<V> { kernel, delta }` of
`sypytkowski-blog/src/delta_state/aworset.rs`. -/
structure AWORSet (V : Type) where
  kernel : DotKernel V
  delta : Option (DotKernel V)
deriving DecidableEq, Repr

/-- `AWORSet::add`: `kernel.remove(&value, deltas)` ("Remove duplicates")
then `kernel.add(replica, value, deltas)`. -/
def AWORSet.add {V : Type} [DecidableEq V] (self : AWORSet V)
    (replica : ReplicaId) (value : V) : AWORSet V :=
  let deltas := self.delta.getD (DotKernel.default V)
  let p := self.kernel.remove value deltas
  let q := p.1.add replica value p.2
  { kernel := q.1, delta := some q.2 }

/-- The number of entries holding a given value. -/
def countValue {V : Type} [DecidableEq V] (value : V) : List (Dot × V) → ℕ
  | [] => 0
  | dv :: t => (if dv.2 = value then 1 else 0) + countValue value t

theorem countValue_eq_zero {V : Type} [DecidableEq V] {value : V}
    {l : List (Dot × V)} (h : ∀ dv ∈ l, dv.2 ≠ value) :
    countValue value l = 0 := by
  induction l with
  | nil => rfl
  | cons hd t ih =>
    rw [countValue, if_neg (h hd (List.mem_cons_self _ _)),
      ih (fun dv hdv => h dv (List.mem_cons_of_mem _ hdv))]

theorem eraseA_not_mem {V : Type} {l : List (Dot × V)} {k : Dot}
    (h : k ∉ keysA l) : eraseA l k = l := by
  induction l with
  | nil => rfl
  | cons hd t ih =>
    obtain ⟨k1, v1⟩ := hd
    have h1 : k ≠ k1 := fun hh => h (by
      rw [keysA, List.map_cons, hh]
      exact List.mem_cons_self _ _)
    have h2 : k ∉ keysA t := fun hh => h (by
      rw [keysA, List.map_cons]
      exact List.mem_cons_of_mem _ hh)
    rw [eraseA, if_neg (fun hh => h1 hh.symm), ih h2]

theorem countValue_eraseA_mem {V : Type} [DecidableEq V] {l : List (Dot × V)}
    (hs : SortedKeys l) {k : Dot} {v : V} (hm : (k, v) ∈ l) :
    countValue v (eraseA l k) + 1 = countValue v l := by
  induction l with
  | nil => simp at hm
  | cons hd t ih =>
    obtain ⟨k1, v1⟩ := hd
    rw [SortedKeys, List.pairwise_cons] at hs
    rcases List.mem_cons.mp hm with heq | hm
    · injection heq with hk hv
      subst hk
      subst hv
      have hnk : k ∉ keysA t := by
        intro hk
        exact absurd (sortedKeys_head_lt (List.Pairwise.cons hs.1 hs.2) hk)
          (lt_irrefl k)
      rw [eraseA, if_pos rfl, eraseA_not_mem hnk, countValue, if_pos rfl]
      omega
    · have hne : k1 ≠ k := by
        intro hh
        have hlt := sortedKeys_head_lt (List.Pairwise.cons hs.1 hs.2)
          (List.mem_map.mpr ⟨(k, v), hm, rfl⟩)
        rw [hh] at hlt
        exact absurd hlt (lt_irrefl k)
      rw [eraseA, if_neg hne, countValue, countValue]
      have := ih hs.2 hm
      omega

theorem countValue_insertA_fresh {V : Type} [DecidableEq V] {value : V}
    {l : List (Dot × V)} (h : countValue value l = 0) (k : Dot) :
    countValue value (insertA l k value) = 1 := by
  induction l with
  | nil => simp [insertA, countValue]
  | cons hd t ih =>
    obtain ⟨k1, v1⟩ := hd
    rw [countValue] at h
    have hv1 : ¬ v1 = value := by
      intro hv
      rw [if_pos hv] at h
      omega
    rw [if_neg hv1] at h
    have ht : countValue value t = 0 := by omega
    by_cases h1 : k < k1
    · rw [insertA, if_pos h1, countValue, countValue, if_pos rfl, if_neg hv1]
      omega
    · by_cases h2 : k = k1
      · rw [insertA, if_neg h1, if_pos h2, countValue, if_pos rfl]
        omega
      · rw [insertA, if_neg h1, if_neg h2, countValue, if_neg hv1, ih ht]

theorem aworset_add_entries_none {V : Type} [DecidableEq V] (s : AWORSet V)
    (replica : ReplicaId) (value : V)
    (hf : s.kernel.entries.find? (fun dv => decide (dv.2 = value)) = none) :
    (s.add replica value).kernel.entries =
      insertA s.kernel.entries
        ⟨replica, lookupD s.kernel.ctx.clock replica 0 + 1⟩ value := by
  simp [AWORSet.add, DotKernel.remove, DotKernel.add, DotCtx.next_dot, hf]

theorem aworset_add_entries_some {V : Type} [DecidableEq V] (s : AWORSet V)
    (replica : ReplicaId) (value : V) (dv : Dot × V)
    (hf : s.kernel.entries.find? (fun dv => decide (dv.2 = value)) = some dv) :
    (s.add replica value).kernel.entries =
      insertA (eraseA s.kernel.entries dv.1)
        ⟨replica, lookupD s.kernel.ctx.clock replica 0 + 1⟩ value := by
  simp [AWORSet.add, DotKernel.remove, DotKernel.add, DotCtx.next_dot, hf]

/-- A set reachable by merging two concurrent adds of the same value 5 (dots
(1,1) and (2,1)), refuting C3 as stated. -/
def c3TwoDots : AWORSet ℕ :=
  { kernel := { ctx := { clock := [(1, 1), (2, 1)], dot_cloud := [] },
                entries := [(⟨1, 1⟩, 5), (⟨2, 1⟩, 5)] },
    delta := none }

/-- Counterexample to C3 as stated: with two dots mapped to 5,
`add(3, 5)` removes only the first and leaves two entries equal to 5 — not
exactly one. -/
theorem C3_counterexample :
    countValue 5 ((c3TwoDots.add 3 5).kernel.entries) = 2 ∧
    SortedKeys c3TwoDots.kernel.entries ∧
    (c3TwoDots.add 3 5).kernel.entries = [(⟨2, 1⟩, 5), (⟨3, 1⟩, 5)] := by
  decide

/-- C3 (amended): after `add(replica, v)` the freshly allocated dot
`(replica, clock[replica] + 1)` maps to `v`; and when at most one prior
entry held `v` (only the first entry equal to `v`, in dot order, is removed
by `add`), the kernel's entries contain exactly one dot whose value equals
`v`, namely the fresh one. -/
theorem C3_aworset_add_sole_witness {V : Type} [DecidableEq V] (s : AWORSet V)
    (replica : ReplicaId) (value : V) (hs : SortedKeys s.kernel.entries)
    (hcount : countValue value s.kernel.entries ≤ 1) :
    countValue value ((s.add replica value).kernel.entries) = 1 ∧
    lookupA ((s.add replica value).kernel.entries)
      ⟨replica, lookupD s.kernel.ctx.clock replica 0 + 1⟩ = some value := by
  cases hf : s.kernel.entries.find? (fun dv => decide (dv.2 = value)) with
  | none =>
    rw [aworset_add_entries_none s replica value hf]
    have hzero : countValue value s.kernel.entries = 0 := by
      rw [List.find?_eq_none] at hf
      refine countValue_eq_zero (fun dv hdv => ?_)
      simpa using hf dv hdv
    exact ⟨countValue_insertA_fresh hzero _, lookupA_insertA_self _ _ _⟩
  | some dv =>
    rw [aworset_add_entries_some s replica value dv hf]
    have hval : dv.2 = value := by simpa using List.find?_some hf
    have hmem : dv ∈ s.kernel.entries := List.mem_of_find?_eq_some hf
    have herase : countValue value (eraseA s.kernel.entries dv.1) + 1 =
        countValue value s.kernel.entries := by
      refine countValue_eraseA_mem hs ?_
      rw [show (dv.1, value) = dv from by rw [← hval]]
      exact hmem
    have hzero : countValue value (eraseA s.kernel.entries dv.1) = 0 := by omega
    exact ⟨countValue_insertA_fresh hzero _, lookupA_insertA_self _ _ _⟩

/-- A set holding a single entry with value 5, for the C3 witness. -/
def c3Single : AWORSet ℕ :=
  { kernel := { ctx := { clock := [(1, 1)], dot_cloud := [] },
                entries := [(⟨1, 1⟩, 5)] },
    delta := none }

/-- Witness for the amended C3 at a concrete one-entry set. -/
theorem C3_witness :
    countValue 5 ((c3Single.add 2 5).kernel.entries) = 1 ∧
    lookupA ((c3Single.add 2 5).kernel.entries)
      ⟨2, lookupD c3Single.kernel.ctx.clock 2 0 + 1⟩ = some 5 :=
  C3_aworset_add_sole_witness c3Single 2 5 (by decide) (by decide)

end Crdts
